import Mathlib

set_option maxRecDepth 2000

/-!
Verification of the BrainStack functional core: the fuzzy-matching answer
grader (`practice_test_question.py`, `PracticeTestQuestion.submit_answer`)
and the Q/A text extractor with its deterministic fallback
(`ai_service.py`, `AIService.generate_practice_test_questions` and
`AIService._fallback_question_generation`).

Python strings are modelled as lists of Unicode code points (`List Nat`).
All definitions are executable translations of the Python source; the
`difflib.SequenceMatcher` similarity routine (a Python standard-library
dependency of `submit_answer`) is embedded following the CPython
implementation of `find_longest_match` / `get_matching_blocks` / `ratio`,
including the `autojunk` heuristic that is active by default for
`SequenceMatcher(None, a, b)`.
-/

/-- Code points of a Lean string literal, used to write concrete test
inputs readably. -/
def codes (s : String) : List Nat :=
  s.toList.map Char.toNat

/-- Unicode code points that Python's `str.isspace` (and hence `str.strip`
with no arguments and the regex class `\s` on `str` patterns) treats as
whitespace. -/
def wsCodes : List Nat :=
  [9, 10, 11, 12, 13, 28, 29, 30, 31, 32, 0x85, 0xA0, 0x1680,
   0x2000, 0x2001, 0x2002, 0x2003, 0x2004, 0x2005, 0x2006, 0x2007,
   0x2008, 0x2009, 0x200A, 0x2028, 0x2029, 0x202F, 0x205F, 0x3000]

/-- Whitespace test on a single code point (Python `str.isspace` on a
one-character string). -/
def pyIsSpace (c : Nat) : Bool :=
  decide (c ∈ wsCodes)

/-- Python `str.lower`, restricted to its action on the ASCII range: code
points of `A`–`Z` are shifted to `a`–`z`, all other code points are kept.
(The full Unicode case mapping of CPython agrees with this on ASCII
inputs; no claim in this development depends on non-ASCII case folding.) -/
def pyLower (c : Nat) : Nat :=
  if 65 ≤ c ∧ c ≤ 90 then c + 32 else c

/-- Leading-whitespace removal, the first half of Python `str.strip()`. -/
def stripStart (t : List Nat) : List Nat :=
  t.dropWhile pyIsSpace

/-- Trailing-whitespace removal, the second half of Python `str.strip()`. -/
def stripEnd : List Nat → List Nat
  | [] => []
  | c :: cs =>
    let r := stripEnd cs
    if r = [] ∧ pyIsSpace c = true then [] else c :: r

/-- Python `str.strip()` with no arguments: remove leading and trailing
whitespace. -/
def stripWs (t : List Nat) : List Nat :=
  stripEnd (stripStart t)

/-- Worker for whitespace-run collapsing.  The flag records whether the
scan is currently inside a whitespace run (whose single replacement space
has already been emitted). -/
def collapseAux : Bool → List Nat → List Nat
  | _, [] => []
  | inRun, c :: cs =>
    if pyIsSpace c then
      if inRun then collapseAux true cs else 32 :: collapseAux true cs
    else
      c :: collapseAux false cs

/-- Python `re.sub(r'\s+', ' ', t)`: every maximal run of whitespace is
replaced by a single ASCII space (code point 32). -/
def collapseWs (t : List Nat) : List Nat :=
  collapseAux false t

/-- Normalization used by `PracticeTestQuestion.submit_answer`, line 47 of
`practice_test_question.py`:
`normalize = lambda t: re.sub(r'\s+', ' ', t.strip().lower())` —
strip, then lowercase, then collapse whitespace runs. -/
def pyNormalize (t : List Nat) : List Nat :=
  collapseWs ((stripWs t).map pyLower)

/-- Normalization in the order the specification describes it (§4.1):
"lowercase the string, then collapse every maximal run of whitespace
characters into a single ASCII space, and trim leading/trailing space".
Modelled from the spec's words, to be compared with `pyNormalize`. -/
def specNormalize (t : List Nat) : List Nat :=
  stripWs (collapseWs (t.map pyLower))

/-!
### SequenceMatcher

Embedding of `difflib.SequenceMatcher(None, a, b).ratio()` as used on
line 53 of `practice_test_question.py`.  `runLenP pop xs ys` is the
length of the common prefix of `xs` and `ys` restricted to positions
whose `ys`-side element is not "popular" (the `j2len` chain of CPython's
`find_longest_match`, which only sees `b`-positions kept in `b2j`).
-/

/-- Length of the longest common prefix of two code-point lists all of
whose second-list elements avoid the `pop` filter. -/
def runLenP (pop : Nat → Bool) : List Nat → List Nat → Nat
  | x :: xs, y :: ys =>
    if x = y && !pop y then runLenP pop xs ys + 1 else 0
  | _, _ => 0

/-- Unfiltered common-prefix length. -/
def runLen : List Nat → List Nat → Nat :=
  runLenP (fun _ => false)

/-- Inner loop of the longest-match search: scan the suffixes of the
second sequence (at offsets `j`, `j+1`, …), keeping the best
`(i, j, size)` triple seen so far.  A candidate replaces the current best
only when strictly longer, so the earliest maximal match wins, exactly as
in CPython's `find_longest_match` main loop. -/
def bestJ (pop : Nat → Bool) (sa : List Nat) (i : Nat) :
    List Nat → Nat → Nat × Nat × Nat → Nat × Nat × Nat
  | [], _, best => best
  | sb@(_ :: bs), j, (bi, bj, bk) =>
    let k := runLenP pop sa sb
    bestJ pop sa i bs (j + 1) (if bk < k then (i, j, k) else (bi, bj, bk))

/-- Outer loop of the longest-match search: scan the suffixes of the
first sequence (at offsets `i`, `i+1`, …). -/
def bestI (pop : Nat → Bool) : List Nat → Nat → List Nat →
    Nat × Nat × Nat → Nat × Nat × Nat
  | [], _, _, best => best
  | sa@(_ :: as'), i, b, best =>
    bestI pop as' (i + 1) b (bestJ pop sa i b 0 best)

/-- Core of CPython `SequenceMatcher.find_longest_match`: the longest
matching block whose `b`-side elements are all non-popular, ties broken
by least `i`, then least `j`; `(0, 0, 0)` when no such block exists. -/
def bestCore (pop : Nat → Bool) (a b : List Nat) : Nat × Nat × Nat :=
  bestI pop a 0 b (0, 0, 0)

/-- CPython `SequenceMatcher.find_longest_match` on whole sequences with
`isjunk=None`: the core search, followed by the two extension loops that
greedily grow the found block leftwards and then rightwards over any
equal elements (the junk-extension loops never fire since the junk set is
empty when `isjunk=None`). -/
def findLongestMatch (pop : Nat → Bool) (a b : List Nat) :
    Nat × Nat × Nat :=
  let t := bestCore pop a b
  let e := runLen ((a.take t.1).reverse) ((b.take t.2.1).reverse)
  let i := t.1 - e
  let j := t.2.1 - e
  let k := t.2.2 + e
  (i, j, k + runLen (a.drop (i + k)) (b.drop (j + k)))

/-- Popularity filter of CPython's `autojunk` heuristic (`__chain_b`):
when the second sequence has length at least 200, every element occurring
more than `len(b) // 100 + 1` times in it is dropped from the `b2j`
index and hence invisible to the core longest-match search. -/
def isPopular (b : List Nat) (c : Nat) : Bool :=
  decide (200 ≤ b.length) && decide (b.length / 100 + 1 < b.count c)

/-- Fuel-indexed total matched length: the sum of the block sizes
produced by CPython `SequenceMatcher.get_matching_blocks` (find the
longest match, recurse on the left and right remainders).  The fuel only
serves to make the recursion structural; `matchedLenPF_fuel_eq` below
shows any fuel at least `a.length + b.length` computes the fixpoint. -/
def matchedLenPF (pop : Nat → Bool) : Nat → List Nat → List Nat → Nat
  | 0, _, _ => 0
  | fuel + 1, a, b =>
    let t := findLongestMatch pop a b
    if t.2.2 = 0 then 0
    else
      matchedLenPF pop fuel (a.take t.1) (b.take t.2.1) + t.2.2 +
        matchedLenPF pop fuel (a.drop (t.1 + t.2.2)) (b.drop (t.2.1 + t.2.2))

/-- Total matched length `M` for `SequenceMatcher(None, a, b)`. -/
def matchedLenP (pop : Nat → Bool) (a b : List Nat) : Nat :=
  matchedLenPF pop (a.length + b.length) a b

/-- CPython `SequenceMatcher(None, a, b).ratio()` as an exact rational:
`2 * M / T` with `T` the total length, and 1 when both strings are empty
(`difflib._calculate_ratio`).  The popularity filter is derived from `b`
exactly as `SequenceMatcher.__chain_b` does with `autojunk=True`. -/
def smScore (a b : List Nat) : ℚ :=
  if a.length + b.length = 0 then 1
  else mkRat (2 * matchedLenP (isPopular b) a b) (a.length + b.length)

/-- Matched length of the plain Ratcliff/Obershelp recursion described by
the specification (§4.1): "repeatedly find the longest contiguous
matching block between the two strings, recurse on the left and right
remainders, and sum matched-block lengths" — no junk or popularity
filtering, ties broken at the earliest position.  Modelled from the
spec's words, to be compared with `matchedLenP`. -/
def ratcliffMF : Nat → List Nat → List Nat → Nat
  | 0, _, _ => 0
  | fuel + 1, a, b =>
    let t := bestCore (fun _ => false) a b
    if t.2.2 = 0 then 0
    else
      ratcliffMF fuel (a.take t.1) (b.take t.2.1) + t.2.2 +
        ratcliffMF fuel (a.drop (t.1 + t.2.2)) (b.drop (t.2.1 + t.2.2))

/-- Total matched length of the specification's matcher. -/
def ratcliffM (a b : List Nat) : Nat :=
  ratcliffMF (a.length + b.length) a b

/-- Similarity `2 * M / T` for the specification's matcher. -/
def roScore (a b : List Nat) : ℚ :=
  if a.length + b.length = 0 then 1
  else mkRat (2 * ratcliffM a b) (a.length + b.length)

/-!
### Grader

`PracticeTestQuestion.submit_answer` (`practice_test_question.py`,
lines 38–54).
-/

/-- Acceptance threshold of the grader (`>= 0.85` on line 53). -/
def threshold : ℚ :=
  mkRat 17 20

/-- Decision logic of `PracticeTestQuestion.submit_answer`: normalize
both strings, accept on exact normalized equality or similarity at least
the threshold. -/
def submitAnswer (user correct : List Nat) : Bool :=
  let u := pyNormalize user
  let c := pyNormalize correct
  u == c || decide (threshold ≤ smScore u c)

/-- State of a `PracticeTestQuestion` object: its five instance fields. -/
structure PTQuestion where
  id : List Nat
  question : List Nat
  correct_answer : List Nat
  user_answer : Option (List Nat)
  is_correct : Option Bool
deriving DecidableEq

/-- The full `submit_answer` method as a state transformer: it stores the
submitted answer in `user_answer`, stores the verdict in `is_correct`,
and returns the verdict. -/
def submitAnswerUpd (q : PTQuestion) (user : List Nat) :
    PTQuestion × Bool :=
  let r := submitAnswer user q.correct_answer
  ({ q with user_answer := some user, is_correct := some r }, r)

/-!
### Q/A extractor

`AIService.generate_practice_test_questions` parsing loop
(`ai_service.py`, lines 111–135) and
`AIService._fallback_question_generation` (lines 141–149).
-/

/-- Code points at which Python `str.splitlines` breaks a line
(`\r\n` is additionally treated as a single break). -/
def lineBreakCodes : List Nat :=
  [10, 11, 12, 13, 28, 29, 30, 0x85, 0x2028, 0x2029]

/-- Worker for `splitLines`; the accumulator holds the current line
reversed. -/
def splitLinesAux : List Nat → List Nat → List (List Nat)
  | acc, [] => if acc = [] then [] else [acc.reverse]
  | acc, 13 :: 10 :: rest => acc.reverse :: splitLinesAux [] rest
  | acc, c :: rest =>
    if lineBreakCodes.contains c then acc.reverse :: splitLinesAux [] rest
    else splitLinesAux (c :: acc) rest

/-- Python `str.splitlines()`. -/
def splitLines (t : List Nat) : List (List Nat) :=
  splitLinesAux [] t

/-- Code points of the tag `"Q:"`. -/
def qTag : List Nat :=
  [81, 58]

/-- Code points of the tag `"A:"`. -/
def aTag : List Nat :=
  [65, 58]

/-- One extracted question/answer item (`{"question": ...,
"correct_answer": ...}` in `ai_service.py`). -/
structure QItem where
  question : List Nat
  correct_answer : List Nat
deriving DecidableEq, Inhabited

/-- A flashcard as consumed by the extractor: its `front` and `back`
fields. -/
structure Flashcard where
  front : List Nat
  back : List Nat
deriving DecidableEq, Inhabited

/-- The parsing loop of `generate_practice_test_questions` (lines
114–129): `cur` is the Python variable `current_question`, whose empty
value is falsy and therefore blocks the `A:` branch. -/
def scanAux : List Nat → List (List Nat) → List QItem
  | _, [] => []
  | cur, l :: ls =>
    let line := stripWs l
    if line = [] then scanAux cur ls
    else if line.take 2 = qTag then scanAux (stripWs (line.drop 2)) ls
    else if line.take 2 = aTag ∧ cur ≠ [] then
      ⟨cur, stripWs (line.drop 2)⟩ :: scanAux [] ls
    else scanAux cur ls

/-- Line scan over a whole response body: the service strips the content
(line 111), splits it into lines and runs the parsing loop with an empty
`current_question`. -/
def scanContent (content : List Nat) : List QItem :=
  scanAux [] (splitLines (stripWs content))

/-- `AIService._fallback_question_generation`: `min(n, len(cards))`
items, the `i`-th wrapping `cards[i % len(cards)]`. -/
def fallbackQs (cards : List Flashcard) (n : Nat) : List QItem :=
  (List.range (min n cards.length)).map fun i =>
    ⟨codes "What is the answer to: " ++
       (cards.getD (i % cards.length) default).front ++ codes "?",
     (cards.getD (i % cards.length) default).back⟩

/-- The extraction step applied to a successful response body (lines
111–135): scan, fall back when the scan yields nothing, otherwise keep
the first `n` items. -/
def extractQs (content : List Nat) (cards : List Flashcard) (n : Nat) :
    List QItem :=
  let qs := scanContent content
  if qs = [] then fallbackQs cards n else qs.take n

/-- `generate_practice_test_questions` as a function of the upstream
outcome: an empty flashcard list short-circuits to `[]` (line 51); an
unavailable or unusable response (`none`) routes to the fallback, as the
`except` handler and the missing-`choices` check do; a response body is
parsed by `extractQs`. -/
def generateQs (cards : List Flashcard) (resp : Option (List Nat))
    (n : Nat) : List QItem :=
  if cards = [] then []
  else
    match resp with
    | none => fallbackQs cards n
    | some content => extractQs content cards n

/-!
### The specification's scan state machine

States and transitions exactly as written in spec §4.2 / claim C2, and
an amended machine that additionally sends a `Q:` line with empty
remainder to `NoPending`.
-/

/-- The two states of the specification's scan machine. -/
inductive ScanState where
  | noPending : ScanState
  | pendingQuestion (text : List Nat) : ScanState
deriving DecidableEq

/-- One transition of the machine exactly as claim C2 states it: a `Q:`
line always moves to `pendingQuestion` holding the trimmed remainder; an
`A:` line in `pendingQuestion` emits an item and returns to `noPending`
and is ignored in `noPending`; blank and unrecognized lines are no-ops. -/
def specStep (s : ScanState) (l : List Nat) : ScanState × Option QItem :=
  let line := stripWs l
  if line = [] then (s, none)
  else if line.take 2 = qTag then
    (ScanState.pendingQuestion (stripWs (line.drop 2)), none)
  else if line.take 2 = aTag then
    match s with
    | ScanState.pendingQuestion q =>
      (ScanState.noPending, some ⟨q, stripWs (line.drop 2)⟩)
    | ScanState.noPending => (s, none)
  else (s, none)

/-- Run of the literal machine; a pending question left at end of input
is discarded. -/
def specRun (s : ScanState) : List (List Nat) → List QItem
  | [] => []
  | l :: ls =>
    match specStep s l with
    | (s', none) => specRun s' ls
    | (s', some item) => item :: specRun s' ls

/-- The literal machine applied to a whole response body. -/
def specScan (content : List Nat) : List QItem :=
  specRun ScanState.noPending (splitLines (stripWs content))

/-- One transition of the amended machine: as `specStep`, except that a
`Q:` line whose trimmed remainder is empty leaves the scanner with no
pending question. -/
def amendStep (s : ScanState) (l : List Nat) : ScanState × Option QItem :=
  let line := stripWs l
  if line = [] then (s, none)
  else if line.take 2 = qTag then
    (if stripWs (line.drop 2) = [] then ScanState.noPending
     else ScanState.pendingQuestion (stripWs (line.drop 2)), none)
  else if line.take 2 = aTag then
    match s with
    | ScanState.pendingQuestion q =>
      (ScanState.noPending, some ⟨q, stripWs (line.drop 2)⟩)
    | ScanState.noPending => (s, none)
  else (s, none)

/-- Run of the amended machine. -/
def amendRun (s : ScanState) : List (List Nat) → List QItem
  | [] => []
  | l :: ls =>
    match amendStep s l with
    | (s', none) => amendRun s' ls
    | (s', some item) => item :: amendRun s' ls

/-- The amended machine applied to a whole response body. -/
def amendScan (content : List Nat) : List QItem :=
  amendRun ScanState.noPending (splitLines (stripWs content))

/-!
## Normalization lemmas

Towards claim C5: the code's normalization order (strip, lowercase,
collapse) agrees with the specification's order (lowercase, collapse,
trim) on every input.
-/

theorem pyIsSpace_pyLower (c : Nat) : pyIsSpace (pyLower c) = pyIsSpace c := by
  unfold pyLower
  split
  · next h =>
    have h1 : pyIsSpace (c + 32) = false := by
      simp only [pyIsSpace, wsCodes, decide_eq_false_iff_not, List.mem_cons,
        List.not_mem_nil, or_false, not_or]
      omega
    have h2 : pyIsSpace c = false := by
      simp only [pyIsSpace, wsCodes, decide_eq_false_iff_not, List.mem_cons,
        List.not_mem_nil, or_false, not_or]
      omega
    rw [h1, h2]
  · rfl

theorem stripStart_map (t : List Nat) :
    stripStart (t.map pyLower) = (stripStart t).map pyLower := by
  induction t with
  | nil => rfl
  | cons c cs ih =>
    simp only [stripStart, List.map_cons, List.dropWhile] at *
    rw [pyIsSpace_pyLower]
    cases h : pyIsSpace c with
    | true => simpa [h] using ih
    | false => simp [h]

theorem stripEnd_map (t : List Nat) :
    stripEnd (t.map pyLower) = (stripEnd t).map pyLower := by
  induction t with
  | nil => rfl
  | cons c cs ih =>
    simp only [List.map_cons, stripEnd, ih, pyIsSpace_pyLower,
      List.map_eq_nil_iff]
    split
    · rfl
    · simp

theorem stripWs_map (t : List Nat) :
    stripWs (t.map pyLower) = (stripWs t).map pyLower := by
  unfold stripWs
  rw [stripStart_map, stripEnd_map]

theorem collapseAux_true_eq (cs : List Nat) :
    collapseAux true cs = collapseAux false (cs.dropWhile pyIsSpace) := by
  induction cs with
  | nil => rfl
  | cons c cs ih =>
    cases h : pyIsSpace c with
    | true => simp [collapseAux, List.dropWhile, h, ih]
    | false => simp [collapseAux, List.dropWhile, h]

theorem dropWhile_shape (p : Nat → Bool) (l : List Nat) :
    l.dropWhile p = [] ∨
      ∃ d ds, l.dropWhile p = d :: ds ∧ p d = false := by
  induction l with
  | nil => exact Or.inl rfl
  | cons c cs ih =>
    cases h : p c with
    | true => simpa [List.dropWhile, h] using ih
    | false => exact Or.inr ⟨c, cs, by simp [List.dropWhile, h], h⟩

theorem collapseAux_false_nil_iff (r : List Nat) :
    collapseAux false r = [] ↔ r = [] := by
  cases r with
  | nil => simp [collapseAux]
  | cons c cs =>
    cases h : pyIsSpace c <;> simp [collapseAux, h]

theorem collapseAux_true_nil_iff (r : List Nat) :
    collapseAux true r = [] ↔ ∀ c ∈ r, pyIsSpace c = true := by
  induction r with
  | nil => simp [collapseAux]
  | cons c cs ih =>
    cases h : pyIsSpace c with
    | true => simp [collapseAux, h, ih]
    | false => simp [collapseAux, h]

theorem stripEnd_nil_iff (cs : List Nat) :
    stripEnd cs = [] ↔ ∀ c ∈ cs, pyIsSpace c = true := by
  induction cs with
  | nil => simp [stripEnd]
  | cons c cs ih =>
    simp only [stripEnd]
    split
    · next h =>
      simp only [true_iff, List.mem_cons]
      intro a ha
      rcases ha with rfl | ha
      · exact h.2
      · exact ih.mp h.1 a ha
    · next h =>
      simp only [List.cons_ne_nil, false_iff, not_forall]
      by_contra hall
      push_neg at hall
      exact h ⟨ih.mpr fun d hd => hall d (List.mem_cons_of_mem _ hd),
        hall c (List.mem_cons_self _ _)⟩

theorem stripEnd_has_nonWs (cs : List Nat) (h : stripEnd cs ≠ []) :
    ∃ d ∈ stripEnd cs, pyIsSpace d = false := by
  induction cs with
  | nil => exact absurd rfl h
  | cons c cs ih =>
    by_cases hcond : stripEnd cs = [] ∧ pyIsSpace c = true
    · exact absurd (by simp [stripEnd, hcond.1, hcond.2]) h
    · have hrw : stripEnd (c :: cs) = c :: stripEnd cs := by
        rw [stripEnd]
        exact if_neg hcond
      rw [hrw]
      by_cases hr : stripEnd cs = []
      · refine ⟨c, List.mem_cons_self _ _, ?_⟩
        cases hw : pyIsSpace c with
        | false => rfl
        | true => exact absurd ⟨hr, hw⟩ hcond
      · obtain ⟨d, hd, hdw⟩ := ih hr
        exact ⟨d, List.mem_cons_of_mem _ hd, hdw⟩

theorem collapse_dropWhile (t : List Nat) :
    collapseAux false (t.dropWhile pyIsSpace) =
      (collapseAux false t).dropWhile pyIsSpace := by
  induction t with
  | nil => rfl
  | cons c cs ih =>
    cases h : pyIsSpace c with
    | false => simp [collapseAux, List.dropWhile, h]
    | true =>
      have hws32 : pyIsSpace 32 = true := by decide
      simp only [List.dropWhile, h, collapseAux, if_pos rfl, hws32,
        collapseAux_true_eq]
      rcases dropWhile_shape pyIsSpace cs with hnil | ⟨d, ds, heq, hd⟩
      · simp [hnil, collapseAux]
      · simp [heq, collapseAux, hd, List.dropWhile]

theorem collapse_stripEnd (v : List Nat) :
    ∀ flag, collapseAux flag (stripEnd v) = stripEnd (collapseAux flag v) := by
  induction v with
  | nil => intro flag; rfl
  | cons c cs ih =>
    intro flag
    have hws32 : pyIsSpace 32 = true := by decide
    by_cases hw : pyIsSpace c = true
    · by_cases hr : stripEnd cs = []
      · have h1 : stripEnd (c :: cs) = [] := by simp [stripEnd, hr, hw]
        rw [h1]
        cases flag with
        | true =>
          have h2 : collapseAux true (c :: cs) = collapseAux true cs := by
            simp [collapseAux, hw]
          rw [h2, ← ih true, hr]
        | false =>
          have h2 : collapseAux false (c :: cs) = 32 :: collapseAux true cs := by
            simp [collapseAux, hw]
          have h3 : stripEnd (collapseAux true cs) = [] := by
            rw [← ih true, hr]
            rfl
          rw [h2]
          simp [stripEnd, collapseAux, h3, hws32]
      · have h1 : stripEnd (c :: cs) = c :: stripEnd cs := by
          rw [stripEnd]
          exact if_neg fun hc => hr hc.1
        rw [h1]
        have hne : collapseAux true (stripEnd cs) ≠ [] := by
          intro hall
          rw [collapseAux_true_nil_iff] at hall
          obtain ⟨d, hd, hdw⟩ := stripEnd_has_nonWs cs hr
          rw [hall d hd] at hdw
          exact Bool.noConfusion hdw
        have hne2 : stripEnd (collapseAux true cs) ≠ [] :=
          fun h => hne ((ih true).trans h)
        cases flag with
        | true =>
          have h2 : collapseAux true (c :: stripEnd cs) =
              collapseAux true (stripEnd cs) := by simp [collapseAux, hw]
          have h3 : collapseAux true (c :: cs) = collapseAux true cs := by
            simp [collapseAux, hw]
          rw [h2, h3, ih true]
        | false =>
          have h2 : collapseAux false (c :: stripEnd cs) =
              32 :: collapseAux true (stripEnd cs) := by simp [collapseAux, hw]
          have h3 : collapseAux false (c :: cs) = 32 :: collapseAux true cs := by
            simp [collapseAux, hw]
          rw [h2, h3, ih true, stripEnd]
          exact (if_neg fun hc => hne2 hc.1).symm
    · have hwb : pyIsSpace c = false := Bool.of_not_eq_true hw
      have h1 : stripEnd (c :: cs) = c :: stripEnd cs := by
        rw [stripEnd]
        exact if_neg fun hc => hw hc.2
      rw [h1]
      have h2 : collapseAux flag (c :: stripEnd cs) =
          c :: collapseAux false (stripEnd cs) := by
        cases flag <;> simp [collapseAux, hwb]
      have h3 : collapseAux flag (c :: cs) = c :: collapseAux false cs := by
        cases flag <;> simp [collapseAux, hwb]
      rw [h2, h3, ih false, stripEnd]
      exact (if_neg fun hc => hw hc.2).symm

/-- Order-of-operations equivalence at the heart of claim C5: collapsing
whitespace runs commutes with stripping surrounding whitespace. -/
theorem collapse_stripWs (u : List Nat) :
    collapseWs (stripWs u) = stripWs (collapseWs u) := by
  unfold stripWs collapseWs
  rw [collapse_stripEnd (stripStart u) false]
  unfold stripStart
  rw [collapse_dropWhile u]

theorem pyNormalize_eq_specNormalize (t : List Nat) :
    pyNormalize t = specNormalize t := by
  unfold pyNormalize specNormalize
  rw [← stripWs_map, collapse_stripWs]

/-!
## SequenceMatcher lemmas

Invariants of the longest-match fold, boundedness of the returned block,
fuel irrelevance of the matched-length recursion, and collapse of the
extension loops when no popularity filtering is active.
-/

theorem runLenP_nil_left (pop : Nat → Bool) (ys : List Nat) :
    runLenP pop [] ys = 0 := by
  cases ys <;> rfl

theorem runLenP_nil_right (pop : Nat → Bool) (xs : List Nat) :
    runLenP pop xs [] = 0 := by
  cases xs <;> rfl

theorem runLenP_cons (pop : Nat → Bool) (x y : Nat) (xs ys : List Nat) :
    runLenP pop (x :: xs) (y :: ys) =
      if x = y && !pop y then runLenP pop xs ys + 1 else 0 := rfl

theorem runLenP_le_left (pop : Nat → Bool) :
    ∀ xs ys : List Nat, runLenP pop xs ys ≤ xs.length := by
  intro xs
  induction xs with
  | nil => intro ys; rw [runLenP_nil_left]; exact Nat.zero_le _
  | cons x xs ih =>
    intro ys
    cases ys with
    | nil => rw [runLenP_nil_right]; exact Nat.zero_le _
    | cons y ys =>
      rw [runLenP_cons]
      split
      · simpa [List.length_cons, Nat.succ_le_succ_iff] using ih ys
      · exact Nat.zero_le _

theorem runLenP_le_right (pop : Nat → Bool) :
    ∀ xs ys : List Nat, runLenP pop xs ys ≤ ys.length := by
  intro xs
  induction xs with
  | nil => intro ys; rw [runLenP_nil_left]; exact Nat.zero_le _
  | cons x xs ih =>
    intro ys
    cases ys with
    | nil => rw [runLenP_nil_right]; exact Nat.zero_le _
    | cons y ys =>
      rw [runLenP_cons]
      split
      · simpa [List.length_cons, Nat.succ_le_succ_iff] using ih ys
      · exact Nat.zero_le _

theorem runLenP_pos (pop : Nat → Bool) (xs ys : List Nat)
    (h : 0 < runLenP pop xs ys) :
    ∃ v, xs.head? = some v ∧ ys.head? = some v ∧ pop v = false := by
  match xs, ys with
  | [], ys => rw [runLenP_nil_left] at h; exact absurd h (Nat.lt_irrefl 0)
  | x :: xs, [] => rw [runLenP_nil_right] at h; exact absurd h (Nat.lt_irrefl 0)
  | x :: xs, y :: ys =>
    rw [runLenP_cons] at h
    split at h
    · next hc =>
      obtain ⟨hxy, hnp⟩ := (Bool.and_eq_true _ _).mp hc
      have hxy' : x = y := decide_eq_true_iff.mp hxy
      subst hxy'
      exact ⟨x, rfl, rfl, by simpa using hnp⟩
    · exact absurd h (Nat.lt_irrefl 0)

theorem runLenP_stop (pop : Nat → Bool) :
    ∀ xs ys : List Nat,
      xs.get? (runLenP pop xs ys) = none ∨
      ys.get? (runLenP pop xs ys) = none ∨
      xs.get? (runLenP pop xs ys) ≠ ys.get? (runLenP pop xs ys) ∨
      ∃ v, ys.get? (runLenP pop xs ys) = some v ∧ pop v = true := by
  intro xs
  induction xs with
  | nil => intro ys; left; rfl
  | cons x xs ih =>
    intro ys
    cases ys with
    | nil => right; left; rw [runLenP_nil_right]; rfl
    | cons y ys =>
      rw [runLenP_cons]
      by_cases hc : (x = y && !pop y) = true
      · rw [if_pos hc]
        simpa [List.get?] using ih ys
      · rw [if_neg hc]
        simp only [List.get?]
        have hc' : ¬(x = y ∧ pop y = false) := by
          rintro ⟨h1, h2⟩
          exact hc (by simp [h1, h2])
        by_cases hxy : x = y
        · have hpy : pop y = true := by
            cases hpy : pop y with
            | true => rfl
            | false => exact absurd ⟨hxy, hpy⟩ hc'
          right; right; right
          exact ⟨y, rfl, hpy⟩
        · right; right; left
          exact fun h => hxy (Option.some.inj h)

theorem bestJ_ge (pop : Nat → Bool) (sa : List Nat) (i : Nat) :
    ∀ (sb : List Nat) (j : Nat) (best : Nat × Nat × Nat),
      best.2.2 ≤ (bestJ pop sa i sb j best).2.2 := by
  intro sb
  induction sb with
  | nil => intro j best; exact Nat.le_refl _
  | cons b0 bs ih =>
    intro j best
    rw [bestJ]
    refine le_trans ?_ (ih (j + 1) _)
    split
    · next hlt => exact Nat.le_of_lt hlt
    · exact Nat.le_refl _

theorem bestJ_max (pop : Nat → Bool) (sa : List Nat) (i : Nat) :
    ∀ (sb : List Nat) (j : Nat) (best : Nat × Nat × Nat) (t : Nat),
      runLenP pop sa (sb.drop t) ≤ (bestJ pop sa i sb j best).2.2 := by
  intro sb
  induction sb with
  | nil =>
    intro j best t
    rw [List.drop_nil, runLenP_nil_right]
    exact Nat.zero_le _
  | cons b0 bs ih =>
    intro j best t
    cases t with
    | zero =>
      rw [List.drop_zero, bestJ]
      refine le_trans ?_ (bestJ_ge pop sa i bs (j + 1) _)
      split
      · exact Nat.le_refl _
      · next hlt => exact Nat.le_of_not_lt hlt
    | succ t =>
      rw [List.drop_succ_cons, bestJ]
      exact ih (j + 1) _ t

theorem bestJ_val (pop : Nat → Bool) (sa : List Nat) (i : Nat) :
    ∀ (sb : List Nat) (j : Nat) (best : Nat × Nat × Nat),
      bestJ pop sa i sb j best = best ∨
        ∃ t, t < sb.length ∧
          bestJ pop sa i sb j best = (i, j + t, runLenP pop sa (sb.drop t)) ∧
          0 < runLenP pop sa (sb.drop t) := by
  intro sb
  induction sb with
  | nil => intro j best; exact Or.inl rfl
  | cons b0 bs ih =>
    intro j best
    rw [bestJ]
    rcases ih (j + 1) (if best.2.2 < runLenP pop sa (b0 :: bs) then
        (i, j, runLenP pop sa (b0 :: bs)) else best) with heq | ⟨t, ht, heq, hpos⟩
    · rw [heq]
      split
      · next hlt =>
        refine Or.inr ⟨0, Nat.succ_pos _, ?_, Nat.lt_of_le_of_lt (Nat.zero_le _) hlt⟩
        rw [List.drop_zero, Nat.add_zero]
      · exact Or.inl rfl
    · refine Or.inr ⟨t + 1, Nat.succ_lt_succ ht, ?_, ?_⟩
      · rw [heq, List.drop_succ_cons]
        congr 2
        omega
      · rw [List.drop_succ_cons]
        exact hpos

theorem bestI_ge (pop : Nat → Bool) :
    ∀ (sa : List Nat) (i : Nat) (b : List Nat) (best : Nat × Nat × Nat),
      best.2.2 ≤ (bestI pop sa i b best).2.2 := by
  intro sa
  induction sa with
  | nil => intro i b best; exact Nat.le_refl _
  | cons a0 as' ih =>
    intro i b best
    rw [bestI]
    exact le_trans (bestJ_ge pop (a0 :: as') i b 0 best) (ih (i + 1) b _)

theorem bestI_max (pop : Nat → Bool) :
    ∀ (sa : List Nat) (i : Nat) (b : List Nat) (best : Nat × Nat × Nat)
      (t u : Nat),
      runLenP pop (sa.drop t) (b.drop u) ≤ (bestI pop sa i b best).2.2 := by
  intro sa
  induction sa with
  | nil =>
    intro i b best t u
    rw [List.drop_nil, runLenP_nil_left]
    exact Nat.zero_le _
  | cons a0 as' ih =>
    intro i b best t u
    cases t with
    | zero =>
      rw [List.drop_zero, bestI]
      exact le_trans (bestJ_max pop (a0 :: as') i b 0 best u)
        (bestI_ge pop as' (i + 1) b _)
    | succ t =>
      rw [List.drop_succ_cons, bestI]
      exact ih (i + 1) b _ t u

theorem bestI_val (pop : Nat → Bool) :
    ∀ (sa : List Nat) (i : Nat) (b : List Nat) (best : Nat × Nat × Nat),
      bestI pop sa i b best = best ∨
        ∃ t u, t < sa.length ∧ u < b.length ∧
          bestI pop sa i b best =
            (i + t, u, runLenP pop (sa.drop t) (b.drop u)) ∧
          0 < runLenP pop (sa.drop t) (b.drop u) := by
  intro sa
  induction sa with
  | nil => intro i b best; exact Or.inl rfl
  | cons a0 as' ih =>
    intro i b best
    rw [bestI]
    rcases ih (i + 1) b (bestJ pop (a0 :: as') i b 0 best) with heq | ⟨t, u, ht, hu, heq, hpos⟩
    · rw [heq]
      rcases bestJ_val pop (a0 :: as') i b 0 best with heq2 | ⟨u, hu, heq2, hpos⟩
      · rw [heq2]; exact Or.inl rfl
      · refine Or.inr ⟨0, u, Nat.succ_pos _, hu, ?_, ?_⟩
        · rw [heq2, List.drop_zero, Nat.add_zero, Nat.zero_add]
        · rw [List.drop_zero]
          exact hpos
    · refine Or.inr ⟨t + 1, u, Nat.succ_lt_succ ht, hu, ?_, ?_⟩
      · rw [heq, List.drop_succ_cons]
        have harith : i + 1 + t = i + (t + 1) := by omega
        rw [harith]
      · rw [List.drop_succ_cons]
        exact hpos

theorem bestCore_max (pop : Nat → Bool) (a b : List Nat) (i j : Nat) :
    runLenP pop (a.drop i) (b.drop j) ≤ (bestCore pop a b).2.2 :=
  bestI_max pop a 0 b (0, 0, 0) i j

theorem bestCore_val (pop : Nat → Bool) (a b : List Nat) :
    bestCore pop a b = (0, 0, 0) ∨
      ∃ i j, i < a.length ∧ j < b.length ∧
        bestCore pop a b = (i, j, runLenP pop (a.drop i) (b.drop j)) ∧
        0 < runLenP pop (a.drop i) (b.drop j) := by
  rcases bestI_val pop a 0 b (0, 0, 0) with heq | ⟨t, u, ht, hu, heq, hpos⟩
  · exact Or.inl heq
  · refine Or.inr ⟨t, u, ht, hu, ?_, hpos⟩
    rw [bestCore, heq, Nat.zero_add]

theorem bestCore_bounds (pop : Nat → Bool) (a b : List Nat) :
    (bestCore pop a b).1 + (bestCore pop a b).2.2 ≤ a.length ∧
      (bestCore pop a b).2.1 + (bestCore pop a b).2.2 ≤ b.length := by
  rcases bestCore_val pop a b with heq | ⟨i, j, hi, hj, heq, _⟩
  · rw [heq]
    exact ⟨Nat.zero_le _, Nat.zero_le _⟩
  · rw [heq]
    dsimp only
    constructor
    · have := runLenP_le_left pop (a.drop i) (b.drop j)
      rw [List.length_drop] at this
      omega
    · have := runLenP_le_right pop (a.drop i) (b.drop j)
      rw [List.length_drop] at this
      omega

theorem flm_bounds (pop : Nat → Bool) (a b : List Nat) :
    (findLongestMatch pop a b).1 + (findLongestMatch pop a b).2.2 ≤ a.length ∧
      (findLongestMatch pop a b).2.1 + (findLongestMatch pop a b).2.2 ≤
        b.length := by
  obtain ⟨hb1, hb2⟩ := bestCore_bounds pop a b
  simp only [findLongestMatch]
  generalize hg : bestCore pop a b = t at hb1 hb2 ⊢
  obtain ⟨i0, j0, k0⟩ := t
  dsimp only at hb1 hb2 ⊢
  have hee1 : runLen ((a.take i0).reverse) ((b.take j0).reverse) ≤ i0 := by
    have h := runLenP_le_left (fun _ => false) ((a.take i0).reverse)
      ((b.take j0).reverse)
    rw [List.length_reverse, List.length_take] at h
    exact le_trans h (Nat.min_le_left _ _)
  have hee2 : runLen ((a.take i0).reverse) ((b.take j0).reverse) ≤ j0 := by
    have h := runLenP_le_right (fun _ => false) ((a.take i0).reverse)
      ((b.take j0).reverse)
    rw [List.length_reverse, List.length_take] at h
    exact le_trans h (Nat.min_le_left _ _)
  set e := runLen ((a.take i0).reverse) ((b.take j0).reverse) with he
  have hf1 : runLen (a.drop (i0 - e + (k0 + e)))
      (b.drop (j0 - e + (k0 + e))) ≤ a.length - (i0 - e + (k0 + e)) := by
    have h := runLenP_le_left (fun _ => false) (a.drop (i0 - e + (k0 + e)))
      (b.drop (j0 - e + (k0 + e)))
    rwa [List.length_drop] at h
  have hf2 : runLen (a.drop (i0 - e + (k0 + e)))
      (b.drop (j0 - e + (k0 + e))) ≤ b.length - (j0 - e + (k0 + e)) := by
    have h := runLenP_le_right (fun _ => false) (a.drop (i0 - e + (k0 + e)))
      (b.drop (j0 - e + (k0 + e)))
    rwa [List.length_drop] at h
  set f := runLen (a.drop (i0 - e + (k0 + e))) (b.drop (j0 - e + (k0 + e)))
    with hf
  exact ⟨by omega, by omega⟩

theorem matchedLenPF_fuel_succ (pop : Nat → Bool) :
    ∀ (f : Nat) (a b : List Nat), a.length + b.length ≤ f →
      matchedLenPF pop (f + 1) a b = matchedLenPF pop f a b := by
  intro f
  induction f with
  | zero =>
    intro a b h
    have ha : a = [] := List.length_eq_zero.mp (by omega)
    have hb : b = [] := List.length_eq_zero.mp (by omega)
    subst ha hb
    rfl
  | succ g ih =>
    intro a b h
    obtain ⟨hk1, hk2⟩ := flm_bounds pop a b
    conv_lhs => rw [matchedLenPF]
    conv_rhs => rw [matchedLenPF]
    by_cases hz : (findLongestMatch pop a b).2.2 = 0
    · rw [if_pos hz, if_pos hz]
    · rw [if_neg hz, if_neg hz]
      have hlen1 : (a.take (findLongestMatch pop a b).1).length +
          (b.take (findLongestMatch pop a b).2.1).length ≤ g := by
        rw [List.length_take, List.length_take]
        have h1 := Nat.min_le_left (findLongestMatch pop a b).1 a.length
        have h2 := Nat.min_le_left (findLongestMatch pop a b).2.1 b.length
        omega
      have hlen2 : (a.drop ((findLongestMatch pop a b).1 +
            (findLongestMatch pop a b).2.2)).length +
          (b.drop ((findLongestMatch pop a b).2.1 +
            (findLongestMatch pop a b).2.2)).length ≤ g := by
        rw [List.length_drop, List.length_drop]
        omega
      rw [ih _ _ hlen1, ih _ _ hlen2]

theorem matchedLenPF_fuel_eq (pop : Nat → Bool) (a b : List Nat) :
    ∀ f, a.length + b.length ≤ f →
      matchedLenPF pop f a b = matchedLenP pop a b := by
  intro f
  induction f with
  | zero =>
    intro h
    rw [matchedLenP]
    have h0 : a.length + b.length = 0 := by omega
    rw [h0]
  | succ g ih =>
    intro h
    rcases Nat.lt_or_ge g (a.length + b.length) with hlt | hge
    · have : a.length + b.length = g + 1 := by omega
      rw [matchedLenP, this]
    · rw [matchedLenPF_fuel_succ pop g a b hge, ih hge]

theorem flm_false_eq_bestCore (a b : List Nat) :
    findLongestMatch (fun _ => false) a b = bestCore (fun _ => false) a b := by
  rcases bestCore_val (fun _ => false) a b with h0 | ⟨i, j, hi, hj, heq, hpos⟩
  · have hmax := bestCore_max (fun _ => false) a b 0 0
    rw [h0] at hmax
    dsimp only at hmax
    simp only [List.drop_zero] at hmax
    have hab : runLenP (fun _ => false) a b = 0 := Nat.le_zero.mp hmax
    simp only [findLongestMatch, runLen, h0]
    simp only [List.take_zero, List.reverse_nil, runLenP_nil_left,
      Nat.sub_zero, Nat.add_zero, Nat.zero_add, List.drop_zero, hab]
  · set K := runLenP (fun _ => false) (a.drop i) (b.drop j) with hK
    have he : runLenP (fun _ => false) ((a.take i).reverse)
        ((b.take j).reverse) = 0 := by
      by_contra hne
      have hpos2 : 0 < runLenP (fun _ => false) ((a.take i).reverse)
          ((b.take j).reverse) := Nat.pos_of_ne_zero hne
      obtain ⟨v, hv1, hv2, _⟩ := runLenP_pos _ _ _ hpos2
      rw [List.head?_reverse] at hv1 hv2
      have hi0 : 0 < i := by
        rcases Nat.eq_zero_or_pos i with rfl | h
        · rw [List.take_zero] at hv1
          exact absurd hv1 (by simp)
        · exact h
      have hj0 : 0 < j := by
        rcases Nat.eq_zero_or_pos j with rfl | h
        · rw [List.take_zero] at hv2
          exact absurd hv2 (by simp)
        · exact h
      rw [List.getLast?_eq_get?, List.length_take,
        Nat.min_eq_left (Nat.le_of_lt hi), List.get?_take (by omega)] at hv1
      rw [List.getLast?_eq_get?, List.length_take,
        Nat.min_eq_left (Nat.le_of_lt hj), List.get?_take (by omega)] at hv2
      have hlta : i - 1 < a.length := by omega
      have hltb : j - 1 < b.length := by omega
      have hi1 : i - 1 + 1 = i := by omega
      have hj1 : j - 1 + 1 = j := by omega
      have hda : a.drop (i - 1) = v :: a.drop i := by
        rw [List.drop_eq_get_cons hlta, hi1]
        rw [List.get?_eq_get hlta] at hv1
        rw [Option.some.inj hv1]
      have hdb : b.drop (j - 1) = v :: b.drop j := by
        rw [List.drop_eq_get_cons hltb, hj1]
        rw [List.get?_eq_get hltb] at hv2
        rw [Option.some.inj hv2]
      have hrun : runLenP (fun _ => false) (a.drop (i - 1)) (b.drop (j - 1)) =
          K + 1 := by
        rw [hda, hdb, runLenP_cons, if_pos (by simp)]
      have hcontra := bestCore_max (fun _ => false) a b (i - 1) (j - 1)
      rw [heq] at hcontra
      dsimp only at hcontra
      rw [hrun] at hcontra
      omega
    have hf : runLenP (fun _ => false) (a.drop (i + K)) (b.drop (j + K)) = 0 := by
      by_contra hne
      have hpos2 : 0 < runLenP (fun _ => false) (a.drop (i + K))
          (b.drop (j + K)) := Nat.pos_of_ne_zero hne
      obtain ⟨v, hv1, hv2, _⟩ := runLenP_pos _ _ _ hpos2
      rw [← List.get?_zero, List.get?_drop, Nat.add_zero] at hv1 hv2
      rcases runLenP_stop (fun _ => false) (a.drop i) (b.drop j) with
        h1 | h2 | h3 | h4
      · rw [← hK, List.get?_drop, hv1] at h1
        exact Option.noConfusion h1
      · rw [← hK, List.get?_drop, hv2] at h2
        exact Option.noConfusion h2
      · rw [← hK, List.get?_drop, List.get?_drop, hv1, hv2] at h3
        exact h3 rfl
      · obtain ⟨w, _, hw⟩ := h4
        exact Bool.noConfusion hw
    simp only [findLongestMatch, runLen, heq]
    rw [he]
    simp only [Nat.sub_zero, Nat.add_zero]
    rw [hf]
    simp only [Nat.add_zero]

theorem matchedLenPF_false_eq (f : Nat) :
    ∀ a b, matchedLenPF (fun _ => false) f a b = ratcliffMF f a b := by
  induction f with
  | zero => intro a b; rfl
  | succ g ih =>
    intro a b
    conv_lhs => rw [matchedLenPF]
    conv_rhs => rw [ratcliffMF]
    simp only [flm_false_eq_bestCore, ih]

theorem isPopular_eq_false (b : List Nat) (h : b.length < 200) :
    isPopular b = fun _ => false := by
  funext c
  simp only [isPopular, Bool.and_eq_false_imp, decide_eq_true_eq,
    decide_eq_false_iff_not]
  omega

theorem matchedLenP_eq_ratcliffM (a b : List Nat) (h : b.length < 200) :
    matchedLenP (isPopular b) a b = ratcliffM a b := by
  rw [matchedLenP, isPopular_eq_false b h, matchedLenPF_false_eq, ratcliffM]

theorem smScore_eq_roScore (a b : List Nat) (h : b.length < 200) :
    smScore a b = roScore a b := by
  unfold smScore roScore
  rw [matchedLenP_eq_ratcliffM a b h]

theorem bestJ_nil_b (pop : Nat → Bool) (sa : List Nat) (i j : Nat)
    (best : Nat × Nat × Nat) : bestJ pop sa i [] j best = best := rfl

theorem bestI_nil_b (pop : Nat → Bool) :
    ∀ (sa : List Nat) (i : Nat) (best : Nat × Nat × Nat),
      bestI pop sa i [] best = best := by
  intro sa
  induction sa with
  | nil => intro i best; rfl
  | cons a0 as' ih =>
    intro i best
    rw [bestI, bestJ_nil_b]
    exact ih (i + 1) best

theorem flm_nil_left (pop : Nat → Bool) (b : List Nat) :
    findLongestMatch pop [] b = (0, 0, 0) := by
  have hc : bestCore pop [] b = (0, 0, 0) := rfl
  simp only [findLongestMatch, hc, runLen]
  simp only [List.take_zero, List.take_nil, List.reverse_nil,
    runLenP_nil_left, Nat.sub_zero, Nat.add_zero, Nat.zero_add,
    List.drop_zero, List.drop_nil]

theorem flm_nil_right (pop : Nat → Bool) (a : List Nat) :
    findLongestMatch pop a [] = (0, 0, 0) := by
  have hc : bestCore pop a [] = (0, 0, 0) := bestI_nil_b pop a 0 (0, 0, 0)
  simp only [findLongestMatch, hc, runLen]
  simp only [List.take_zero, List.take_nil, List.reverse_nil,
    runLenP_nil_left, runLenP_nil_right, Nat.sub_zero, Nat.add_zero,
    Nat.zero_add, List.drop_zero, List.drop_nil]

theorem matchedLenPF_nil_left (pop : Nat → Bool) (f : Nat) (b : List Nat) :
    matchedLenPF pop f [] b = 0 := by
  cases f with
  | zero => rfl
  | succ g =>
    conv_lhs => rw [matchedLenPF]
    simp [flm_nil_left]

theorem matchedLenPF_nil_right (pop : Nat → Bool) (f : Nat) (a : List Nat) :
    matchedLenPF pop f a [] = 0 := by
  cases f with
  | zero => rfl
  | succ g =>
    conv_lhs => rw [matchedLenPF]
    simp [flm_nil_right]

theorem smScore_nil_left (b : List Nat) (h : b ≠ []) :
    smScore [] b = 0 := by
  unfold smScore
  rw [if_neg (by simp [List.length_eq_zero, h])]
  rw [matchedLenP, matchedLenPF_nil_left]
  simp

theorem smScore_nil_right (a : List Nat) (h : a ≠ []) :
    smScore a [] = 0 := by
  unfold smScore
  rw [if_neg (by simp [List.length_eq_zero, h])]
  rw [matchedLenP, matchedLenPF_nil_right]
  simp

/-!
## Extractor lemmas
-/

theorem scanAux_question_ne_nil :
    ∀ (lines : List (List Nat)) (cur : List Nat) (item : QItem),
      item ∈ scanAux cur lines → item.question ≠ [] := by
  intro lines
  induction lines with
  | nil => intro cur item h; exact absurd h (List.not_mem_nil item)
  | cons l ls ih =>
    intro cur item h
    by_cases hblank : stripWs l = []
    · rw [scanAux, if_pos hblank] at h
      exact ih cur item h
    · by_cases hq : (stripWs l).take 2 = qTag
      · rw [scanAux, if_neg hblank, if_pos hq] at h
        exact ih _ item h
      · by_cases ha : (stripWs l).take 2 = aTag ∧ cur ≠ []
        · rw [scanAux, if_neg hblank, if_neg hq, if_pos ha] at h
          rcases List.mem_cons.mp h with rfl | h
          · exact ha.2
          · exact ih [] item h
        · rw [scanAux, if_neg hblank, if_neg hq, if_neg ha] at h
          exact ih cur item h

theorem scanAux_all_q :
    ∀ (lines : List (List Nat)) (cur : List Nat),
      (∀ l ∈ lines, (stripWs l).take 2 = qTag) → scanAux cur lines = [] := by
  intro lines
  induction lines with
  | nil => intro cur _; rfl
  | cons l ls ih =>
    intro cur hall
    have hq : (stripWs l).take 2 = qTag := hall l (List.mem_cons_self _ _)
    have hblank : stripWs l ≠ [] := by
      intro h
      rw [h] at hq
      exact absurd hq (by decide)
    rw [scanAux, if_neg hblank, if_pos hq]
    exact ih _ fun l' hl' => hall l' (List.mem_cons_of_mem _ hl')

theorem scanAux_eq_amendRun :
    ∀ (lines : List (List Nat)) (cur : List Nat),
      scanAux cur lines =
        amendRun (if cur = [] then ScanState.noPending
          else ScanState.pendingQuestion cur) lines := by
  intro lines
  induction lines with
  | nil => intro cur; split <;> rfl
  | cons l ls ih =>
    intro cur
    by_cases hblank : stripWs l = []
    · have h1 : scanAux cur (l :: ls) = scanAux cur ls := by
        rw [scanAux, if_pos hblank]
      have h2 : ∀ s, amendRun s (l :: ls) = amendRun s ls := by
        intro s
        rw [amendRun]
        have hs : amendStep s l = (s, none) := by
          rw [amendStep.eq_def]
          dsimp only
          rw [if_pos hblank]
        rw [hs]
      rw [h1, h2]
      exact ih cur
    · by_cases hq : (stripWs l).take 2 = qTag
      · have h1 : scanAux cur (l :: ls) =
            scanAux (stripWs ((stripWs l).drop 2)) ls := by
          rw [scanAux, if_neg hblank, if_pos hq]
        have h2 : ∀ s, amendRun s (l :: ls) =
            amendRun (if stripWs ((stripWs l).drop 2) = [] then
              ScanState.noPending
              else ScanState.pendingQuestion (stripWs ((stripWs l).drop 2)))
              ls := by
          intro s
          rw [amendRun]
          have hs : amendStep s l =
              (if stripWs ((stripWs l).drop 2) = [] then ScanState.noPending
               else ScanState.pendingQuestion (stripWs ((stripWs l).drop 2)),
               none) := by
            rw [amendStep.eq_def]
            dsimp only
            rw [if_neg hblank, if_pos hq]
          rw [hs]
        rw [h1, h2 _, ih _]
      · by_cases ha : (stripWs l).take 2 = aTag
        · by_cases hcur : cur = []
          · subst hcur
            have h1 : scanAux ([] : List Nat) (l :: ls) = scanAux [] ls := by
              rw [scanAux, if_neg hblank, if_neg hq,
                if_neg (by simp [ha] : ¬((stripWs l).take 2 = aTag ∧
                  ([] : List Nat) ≠ []))]
            have h2 : amendRun ScanState.noPending (l :: ls) =
                amendRun ScanState.noPending ls := by
              rw [amendRun]
              have hs : amendStep ScanState.noPending l =
                  (ScanState.noPending, none) := by
                rw [amendStep.eq_def]
                dsimp only
                rw [if_neg hblank, if_neg hq, if_pos ha]
              rw [hs]
            rw [if_pos rfl, h1, h2]
            simpa using ih []
          · have h1 : scanAux cur (l :: ls) =
                ⟨cur, stripWs ((stripWs l).drop 2)⟩ :: scanAux [] ls := by
              rw [scanAux, if_neg hblank, if_neg hq, if_pos ⟨ha, hcur⟩]
            have h2 : amendRun (ScanState.pendingQuestion cur) (l :: ls) =
                ⟨cur, stripWs ((stripWs l).drop 2)⟩ ::
                  amendRun ScanState.noPending ls := by
              rw [amendRun]
              have hs : amendStep (ScanState.pendingQuestion cur) l =
                  (ScanState.noPending,
                   some ⟨cur, stripWs ((stripWs l).drop 2)⟩) := by
                rw [amendStep.eq_def]
                dsimp only
                rw [if_neg hblank, if_neg hq, if_pos ha]
              rw [hs]
            rw [if_neg hcur, h1, h2]
            have := ih ([] : List Nat)
            rw [if_pos rfl] at this
            rw [this]
        · have hna : ¬((stripWs l).take 2 = aTag ∧ cur ≠ []) :=
            fun hc => ha hc.1
          have h1 : scanAux cur (l :: ls) = scanAux cur ls := by
            rw [scanAux, if_neg hblank, if_neg hq, if_neg hna]
          have h2 : ∀ s, amendRun s (l :: ls) = amendRun s ls := by
            intro s
            rw [amendRun]
            have hs : amendStep s l = (s, none) := by
              rw [amendStep.eq_def]
              dsimp only
              rw [if_neg hblank, if_neg hq, if_neg ha]
            rw [hs]
          rw [h1, h2]
          exact ih cur

theorem fallbackQs_length (cards : List Flashcard) (n : Nat) :
    (fallbackQs cards n).length = min n cards.length := by
  simp [fallbackQs]

theorem fallbackQs_get? (cards : List Flashcard) (n i : Nat)
    (h : i < min n cards.length) :
    (fallbackQs cards n).get? i =
      some ⟨codes "What is the answer to: " ++
        (cards.getD (i % cards.length) default).front ++ codes "?",
        (cards.getD (i % cards.length) default).back⟩ := by
  unfold fallbackQs
  rw [List.get?_map, List.get?_range h]
  rfl

theorem extractQs_len_le (content : List Nat) (cards : List Flashcard)
    (n : Nat) : (extractQs content cards n).length ≤ n := by
  unfold extractQs
  dsimp only
  split
  · rw [fallbackQs_length]
    exact Nat.min_le_left _ _
  · rw [List.length_take]
    exact Nat.min_le_left _ _

theorem generateQs_len_le (cards : List Flashcard) (resp : Option (List Nat))
    (n : Nat) : (generateQs cards resp n).length ≤ n := by
  unfold generateQs
  split
  · exact Nat.zero_le _
  · cases resp with
    | none =>
      rw [fallbackQs_length]
      exact Nat.min_le_left _ _
    | some content => exact extractQs_len_le content cards n

/-!
## Claim theorems
-/

/-- C1: `submit_answer` returns true iff the two normalized strings are
exactly equal or their SequenceMatcher ratio is at least 0.85; the
threshold is inclusive — a pair of unequal normalized strings with ratio
exactly 17/20 grades true, and a pair with ratio strictly below 17/20
grades false. -/
theorem C1_grader_decision :
    (∀ user correct : List Nat,
      submitAnswer user correct = true ↔
        (pyNormalize user = pyNormalize correct ∨
          threshold ≤ smScore (pyNormalize user) (pyNormalize correct))) ∧
    (pyNormalize (codes "abcdefghijklmnopqxyz") ≠
        pyNormalize (codes "abcdefghijklmnopq123") ∧
      smScore (pyNormalize (codes "abcdefghijklmnopqxyz"))
        (pyNormalize (codes "abcdefghijklmnopq123")) = threshold ∧
      submitAnswer (codes "abcdefghijklmnopqxyz")
        (codes "abcdefghijklmnopq123") = true) ∧
    (pyNormalize (codes "abcdefghijklmnopqrst") ≠
        pyNormalize (codes "abcdefghijklmnop1234") ∧
      smScore (pyNormalize (codes "abcdefghijklmnopqrst"))
        (pyNormalize (codes "abcdefghijklmnop1234")) < threshold ∧
      submitAnswer (codes "abcdefghijklmnopqrst")
        (codes "abcdefghijklmnop1234") = false) := by
  refine ⟨?_, ⟨?_, ?_, ?_⟩, ⟨?_, ?_, ?_⟩⟩
  · intro user correct
    unfold submitAnswer
    dsimp only
    rw [Bool.or_eq_true, beq_iff_eq, decide_eq_true_iff]
  · decide
  · decide
  · decide
  · decide
  · decide
  · decide

/-- C4 counterexample: on the normalized strings `"xaaaa"` and
`'a'*199 ++ "x"` (the second of length 200, so the `autojunk` popularity
filter is active), the grader's SequenceMatcher ratio is 2/205, while
the plain Ratcliff/Obershelp recursion described by the specification
gives 8/205 — so the grader's ratio is not the specification's ratio on
every pair of normalized strings. -/
theorem C4_counterexample :
    smScore (codes "xaaaa") (List.replicate 199 97 ++ [120]) ≠
      roScore (codes "xaaaa") (List.replicate 199 97 ++ [120]) ∧
    smScore (codes "xaaaa") (List.replicate 199 97 ++ [120]) =
      mkRat 2 205 ∧
    roScore (codes "xaaaa") (List.replicate 199 97 ++ [120]) =
      mkRat 8 205 ∧
    pyNormalize (codes "xaaaa") = codes "xaaaa" ∧
    pyNormalize (List.replicate 199 97 ++ [120]) =
      List.replicate 199 97 ++ [120] := by
  refine ⟨?_, ?_, ?_, ?_, ?_⟩ <;> decide

/-- C4 amended: whenever the second (reference-side) normalized string is
shorter than 200 characters — so the `autojunk` popularity heuristic of
`SequenceMatcher` is inactive — the grader's similarity ratio equals
`2 * M / T` with `M` computed by the Ratcliff/Obershelp
longest-matching-block recursion, and the ratio is 0 whenever exactly one
of the strings is empty. -/
theorem C4_amended :
    (∀ a b : List Nat, b.length < 200 → smScore a b = roScore a b) ∧
    (∀ b : List Nat, b ≠ [] → smScore [] b = 0) ∧
    (∀ a : List Nat, a ≠ [] → smScore a [] = 0) :=
  ⟨fun a b h => smScore_eq_roScore a b h, smScore_nil_left, smScore_nil_right⟩

/-- Witness for C4_amended at concrete inputs. -/
theorem C4_amended_witness :
    smScore (codes "ab") (codes "abc") = roScore (codes "ab") (codes "abc") ∧
    smScore [] (codes "x") = 0 ∧
    smScore (codes "x") [] = 0 :=
  ⟨C4_amended.1 (codes "ab") (codes "abc") (by decide),
   C4_amended.2.1 (codes "x") (by decide),
   C4_amended.2.2 (codes "x") (by decide)⟩

/-- C5: the grader's normalization (strip, then lowercase, then collapse
whitespace runs) maps every string to exactly what the specification's
order of operations (lowercase, collapse runs, then trim) produces. -/
theorem C5_normalize_order (t : List Nat) :
    pyNormalize t = specNormalize t :=
  pyNormalize_eq_specNormalize t

/-- C2 counterexample: on the input `"Q:\nA: 4"`, the literal machine of
the claim — where a `Q:` line always moves to `PendingQuestion` holding
the trimmed remainder and an `A:` line in `PendingQuestion` emits — emits
the item `("", "4")`, while the code's scan emits nothing (the empty
pending text is falsy in Python). -/
theorem C2_counterexample :
    scanContent (codes "Q:\nA: 4") = [] ∧
    specScan (codes "Q:\nA: 4") = [⟨[], codes "4"⟩] ∧
    scanContent (codes "Q:\nA: 4") ≠ specScan (codes "Q:\nA: 4") := by
  refine ⟨?_, ?_, ?_⟩ <;> decide

/-- C2 amended: the scan follows the two-state machine amended in one
point: a `Q:` line whose trimmed remainder is empty leaves the scanner
with no pending question (instead of `PendingQuestion ""`); all other
transitions are as the claim states them.  Consequently an input whose
lines are all `Q:` lines (in particular a single `Q:` line with no
following `A:` line) yields zero items. -/
theorem C2_amended :
    (∀ content : List Nat, scanContent content = amendScan content) ∧
    (∀ content : List Nat,
      (∀ l ∈ splitLines (stripWs content), (stripWs l).take 2 = qTag) →
        scanContent content = []) := by
  constructor
  · intro content
    unfold scanContent amendScan
    have h := scanAux_eq_amendRun (splitLines (stripWs content)) []
    rwa [if_pos rfl] at h
  · intro content hall
    exact scanAux_all_q _ [] hall

/-- Witness for C2_amended at concrete inputs. -/
theorem C2_amended_witness :
    scanContent (codes "Q: What is 2+2?\nA: 4") =
      amendScan (codes "Q: What is 2+2?\nA: 4") ∧
    scanContent (codes "Q: Orphan question?") = [] :=
  ⟨C2_amended.1 (codes "Q: What is 2+2?\nA: 4"),
   C2_amended.2 (codes "Q: Orphan question?") (by decide)⟩

/-- C10: a line whose trimmed content is exactly `Q:` leaves the scanner
in the same observable state as having no pending question — the rest of
the scan proceeds exactly as if `current_question` were empty, so a
directly following `A:` line emits nothing — and every item the scan
emits has a non-empty question text. -/
theorem C10_empty_question :
    (∀ (cur l : List Nat) (ls : List (List Nat)),
      stripWs l = qTag → scanAux cur (l :: ls) = scanAux [] ls) ∧
    (∀ (content : List Nat) (item : QItem),
      item ∈ scanContent content → item.question ≠ []) := by
  constructor
  · intro cur l ls h
    have hne : stripWs l ≠ [] := by
      rw [h]
      decide
    have hq : (stripWs l).take 2 = qTag := by
      rw [h]
      decide
    rw [scanAux, if_neg hne, if_pos hq, h]
    rfl
  · intro content item h
    exact scanAux_question_ne_nil _ [] item h

/-- Witness for C10_empty_question at concrete inputs. -/
theorem C10_witness :
    scanAux [] [codes "Q:", codes "A: 4"] = scanAux [] [codes "A: 4"] ∧
    (⟨codes "x", codes "y"⟩ : QItem).question ≠ [] :=
  ⟨C10_empty_question.1 [] (codes "Q:") [codes "A: 4"] (by decide),
   C10_empty_question.2 (codes "Q: x\nA: y") ⟨codes "x", codes "y"⟩
     (by decide)⟩

/-- C3: the fallback generator yields exactly `min(n, len(cards))` items;
the `i`-th item wraps `cards[i mod len(cards)].front` as
`"What is the answer to: {front}?"` with answer `cards[i mod len].back`
verbatim; for `n ≥ 1` the result is non-empty iff the card list is
non-empty (empty exactly when the card list is empty). -/
theorem C3_fallback (cards : List Flashcard) (n : Nat) :
    (fallbackQs cards n).length = min n cards.length ∧
    (∀ i, i < min n cards.length →
      (fallbackQs cards n).get? i =
        some ⟨codes "What is the answer to: " ++
          (cards.getD (i % cards.length) default).front ++ codes "?",
          (cards.getD (i % cards.length) default).back⟩) ∧
    (1 ≤ n → cards ≠ [] → fallbackQs cards n ≠ []) ∧
    (1 ≤ n → (fallbackQs cards n = [] ↔ cards = [])) := by
  refine ⟨fallbackQs_length cards n, fun i hi => fallbackQs_get? cards n i hi,
    ?_, ?_⟩
  · intro hn hc
    intro hnil
    have h := fallbackQs_length cards n
    rw [hnil] at h
    have hcl : 0 < cards.length := List.length_pos.mpr hc
    simp only [List.length_nil] at h
    omega
  · intro hn
    constructor
    · intro hnil
      have h := fallbackQs_length cards n
      rw [hnil] at h
      simp only [List.length_nil] at h
      rcases List.eq_nil_or_concat cards with rfl | _
      · rfl
      · have hcl : 0 < cards.length := by
          rcases cards with _ | ⟨c, cs⟩
          · simp at *
          · simp
        omega
    · intro hc
      subst hc
      rw [← List.length_eq_zero, fallbackQs_length]
      simp

/-- Witness for C3_fallback at concrete inputs. -/
theorem C3_witness :
    (fallbackQs [⟨codes "a", codes "1"⟩, ⟨codes "b", codes "2"⟩] 5).length =
      min 5 2 ∧
    (fallbackQs [⟨codes "a", codes "1"⟩, ⟨codes "b", codes "2"⟩] 5).get? 1 =
      some ⟨codes "What is the answer to: " ++
        ([⟨codes "a", codes "1"⟩,
          (⟨codes "b", codes "2"⟩ : Flashcard)].getD (1 % 2) default).front ++
        codes "?",
        ([⟨codes "a", codes "1"⟩,
          (⟨codes "b", codes "2"⟩ : Flashcard)].getD (1 % 2) default).back⟩ ∧
    fallbackQs [⟨codes "a", codes "1"⟩, ⟨codes "b", codes "2"⟩] 5 ≠ [] :=
  ⟨(C3_fallback _ 5).1,
   (C3_fallback _ 5).2.1 1 (by decide),
   (C3_fallback _ 5).2.2.1 (by decide) (by decide)⟩

/-- C9 counterexample: with exactly 2 flashcards and requested count 3,
the fallback produces `min(3, 2) = 2` items, so there is no item at index
2 at all. -/
theorem C9_counterexample :
    (fallbackQs [⟨codes "a", codes "1"⟩, ⟨codes "b", codes "2"⟩] 3).get? 2 =
      none ∧
    (fallbackQs [⟨codes "a", codes "1"⟩, ⟨codes "b", codes "2"⟩] 3).length =
      2 := by
  refine ⟨?_, ?_⟩ <;> decide

/-- C9 amended: with 2 flashcards and n = 3 the fallback produces exactly
the two items for `cards[0]` and `cards[1]` (`i mod 2 = i` for the
produced indices, so the modulo wraparound in the code is never
exercised); no third item exists. -/
theorem C9_amended (c0 c1 : Flashcard) :
    fallbackQs [c0, c1] 3 =
      [⟨codes "What is the answer to: " ++ c0.front ++ codes "?", c0.back⟩,
       ⟨codes "What is the answer to: " ++ c1.front ++ codes "?",
        c1.back⟩] := by
  rfl

/-- C6: for n ≥ 1, when the scan emits more than n items the extractor
returns exactly the first n emitted items in order, and on every path
(scan, fallback, or the empty-deck guard of the caller) the returned list
has length at most n. -/
theorem C6_truncation (content : List Nat) (cards : List Flashcard)
    (n : Nat) (hn : 1 ≤ n) :
    (n < (scanContent content).length →
      extractQs content cards n = (scanContent content).take n) ∧
    (extractQs content cards n).length ≤ n ∧
    (∀ resp, (generateQs cards resp n).length ≤ n) := by
  refine ⟨?_, extractQs_len_le content cards n,
    fun resp => generateQs_len_le cards resp n⟩
  intro hlen
  have hne : scanContent content ≠ [] := by
    intro h
    rw [h] at hlen
    simp at hlen
  unfold extractQs
  dsimp only
  rw [if_neg hne]

/-- Witness for C6_truncation: five well-formed Q/A pairs, n = 3. -/
theorem C6_witness :
    extractQs (codes "Q: a\nA: 1\nQ: b\nA: 2\nQ: c\nA: 3\nQ: d\nA: 4\nQ: e\nA: 5")
        [] 3 =
      (scanContent
        (codes "Q: a\nA: 1\nQ: b\nA: 2\nQ: c\nA: 3\nQ: d\nA: 4\nQ: e\nA: 5")).take
        3 ∧
    (extractQs (codes "Q: a\nA: 1\nQ: b\nA: 2\nQ: c\nA: 3\nQ: d\nA: 4\nQ: e\nA: 5")
        [] 3).length ≤ 3 :=
  ⟨(C6_truncation _ [] 3 (by decide)).1 (by decide),
   (C6_truncation _ [] 3 (by decide)).2.1⟩

/-- C7 counterexample: the reference `" "` is a non-empty string, yet
grading the empty submission against it returns true (both normalize to
the empty string), contradicting the claim that a non-empty reference
makes the result false. -/
theorem C7_counterexample :
    ([32] : List Nat) ≠ [] ∧ submitAnswer [] [32] = true := by
  refine ⟨?_, ?_⟩ <;> decide

/-- C7 amended: when the reference answer's normalized form is non-empty,
grading the empty submission yields false (normalized equality fails and
the similarity ratio is 0); when both submission and reference are empty,
grading yields true. -/
theorem C7_amended :
    (∀ r : List Nat, pyNormalize r ≠ [] → submitAnswer [] r = false) ∧
    submitAnswer [] [] = true := by
  constructor
  · intro r h
    unfold submitAnswer
    dsimp only
    have h0 : pyNormalize ([] : List Nat) = [] := rfl
    rw [h0]
    have h1 : (([] : List Nat) == pyNormalize r) = false := by
      rw [beq_eq_false_iff_ne]
      exact fun he => h he.symm
    have h2 : smScore [] (pyNormalize r) = 0 := smScore_nil_left _ h
    rw [h1, h2, Bool.false_or]
    exact decide_eq_false (by decide)
  · decide

/-- Witness for C7_amended at a concrete input. -/
theorem C7_witness :
    submitAnswer [] (codes "paris") = false ∧ submitAnswer [] [] = true :=
  ⟨C7_amended.1 (codes "paris") (by decide), C7_amended.2⟩

/-- C8 counterexample: invoking `submit_answer` does not leave every
field of the question object unchanged — it overwrites `user_answer` (and
`is_correct`), so the resulting object state differs from the original. -/
theorem C8_counterexample :
    (submitAnswerUpd ⟨codes "id1", codes "q", codes "paris", none, none⟩
        (codes "paris")).1 ≠
      ⟨codes "id1", codes "q", codes "paris", none, none⟩ ∧
    (submitAnswerUpd ⟨codes "id1", codes "q", codes "paris", none, none⟩
        (codes "paris")).1.user_answer = some (codes "paris") := by
  refine ⟨?_, ?_⟩ <;> decide

/-- C8 amended: the verdict is a pure function of the submitted string
and the stored reference string; invoking `submit_answer` leaves `id`,
`question` and `correct_answer` unchanged, and its only state effect is
recording the submitted answer in `user_answer` and the verdict in
`is_correct`. -/
theorem C8_amended (q : PTQuestion) (ua : List Nat) :
    (submitAnswerUpd q ua).2 = submitAnswer ua q.correct_answer ∧
    (submitAnswerUpd q ua).1.id = q.id ∧
    (submitAnswerUpd q ua).1.question = q.question ∧
    (submitAnswerUpd q ua).1.correct_answer = q.correct_answer ∧
    (submitAnswerUpd q ua).1.user_answer = some ua ∧
    (submitAnswerUpd q ua).1.is_correct =
      some (submitAnswer ua q.correct_answer) :=
  ⟨rfl, rfl, rfl, rfl, rfl, rfl⟩
